import Mathlib

/-!
Verification of the `AssetManager` of `bevy-asset-manager` (src/src/lib.rs).

The manager holds a map from keys to entries; an entry is either
`Lazy path` (registered, load not yet requested) or `Loaded handle`
(a load has been requested and a handle to the resource is stored).
The external collaborator `AssetServer::load(path)` is modelled as an
operation on a state that records every load request in a log and hands
back a fresh strong handle; a Bevy `Handle` is modelled by the identity
of its underlying resource reference plus its strong/weak flag, with
`clone_weak` producing a weak handle to the same reference.
-/

namespace BevyAssetManager

/-- A Bevy `Handle<Asset>`: `id` identifies the underlying resource
reference (two handles with the same `id` are duplicates of the same
reference), `strong` tells a strong handle from a weak one.  The source
only ever duplicates handles through `Handle::clone_weak`. -/
structure Handle where
  id : Nat
  strong : Bool
deriving DecidableEq, Repr

/-- `Handle::clone_weak`: a weak handle to the same underlying reference;
no load is triggered by cloning. -/
def Handle.clone_weak (h : Handle) : Handle :=
  ⟨h.id, false⟩

/-- The per-key entry of the manager: `enum AssetHandle<Asset>` of the
source, with variants `Lazy(String)` and `Loaded(Handle<Asset>)`. -/
inductive AssetHandle where
  | Lazy (path : String)
  | Loaded (handle : Handle)
deriving DecidableEq, Repr

/-- The key-to-entry map.  The source's `HashMap<Key, AssetHandle>` is
modelled as an association list holding at most one entry per key. -/
abbrev AssetMap (Key : Type) := List (Key × AssetHandle)

/-- `HashMap::get` / the lookup half of `get_mut`: the value stored at
`key`, if any. -/
def lookupKey {Key : Type} [DecidableEq Key] : AssetMap Key → Key → Option AssetHandle
  | [], _ => none
  | (k, v) :: rest, key => if k = key then some v else lookupKey rest key

/-- `HashMap::insert`: replaces the value at `key` in place when present,
otherwise adds the binding. -/
def insertKey {Key : Type} [DecidableEq Key] : AssetMap Key → Key → AssetHandle → AssetMap Key
  | [], key, v => [(key, v)]
  | (k, w) :: rest, key, v =>
      if k = key then (k, v) :: rest else (k, w) :: insertKey rest key v

/-- The write half of `get_mut` followed by `*asset = v`: rewrites the
value at `key` in place when present, and does nothing when absent. -/
def updateKey {Key : Type} [DecidableEq Key] : AssetMap Key → Key → AssetHandle → AssetMap Key
  | [], _, _ => []
  | (k, w) :: rest, key, v =>
      if k = key then (k, v) :: rest else (k, w) :: updateKey rest key v

/-- The state of an `AssetManager<Key, Asset>` together with the observable
history of its collaborator: `assets` is the guarded map, `log` records, in
order, every load request handed to the `AssetServer` (the path requested,
tagged with the key whose entry was being processed; the tag is ghost
attribution, the server itself only receives the path). -/
structure AMState (Key : Type) where
  assets : AssetMap Key
  log : List (Key × String)
deriving DecidableEq, Repr

/-- One call to `self.asset_server.load(path)` made while processing `key`:
the request is appended to the log and a fresh strong handle to the loaded
resource is returned.  The id of the handle is the position of the request
in the log, so handles produced by distinct load calls are distinct
references. -/
def serverLoad {Key : Type} (s : AMState Key) (key : Key) (path : String) :
    Handle × AMState Key :=
  (⟨s.log.length, true⟩, ⟨s.assets, s.log ++ [(key, path)]⟩)

variable {Key : Type} [DecidableEq Key]

/-- `AssetManager::insert` (the lazy insertion, `insert_lazy` of the spec):
stores `Lazy path` at `key`; the server is not consulted. -/
def insert (s : AMState Key) (key : Key) (path : String) : AMState Key :=
  ⟨insertKey s.assets key (.Lazy path), s.log⟩

/-- `AssetManager::insert_many`: lazy insertion of each pair in order under
one lock acquisition. -/
def insert_many (s : AMState Key) (pairs : List (Key × String)) : AMState Key :=
  pairs.foldl (fun acc kp => insert acc kp.1 kp.2) s

/-- `AssetManager::insert_loaded`: requests a load for `path` immediately
and stores the resulting strong handle as `Loaded`. -/
def insert_loaded (s : AMState Key) (key : Key) (path : String) : AMState Key :=
  let hs := serverLoad s key path
  ⟨insertKey hs.2.assets key (.Loaded hs.1), hs.2.log⟩

/-- `AssetManager::insert_many_loaded`: eager insertion of each pair in
order under one lock acquisition, one load request per pair. -/
def insert_many_loaded (s : AMState Key) (pairs : List (Key × String)) : AMState Key :=
  pairs.foldl (fun acc kp => insert_loaded acc kp.1 kp.2) s

/-- `AssetManager::load` (`resolve` of the spec): when the entry at `key`
is `Lazy path`, requests a load for `path` and rewrites the entry to
`Loaded` with the strong handle returned by the server; a `Loaded` entry
and an absent key are left untouched. -/
def load (s : AMState Key) (key : Key) : AMState Key :=
  match lookupKey s.assets key with
  | some (.Lazy path) =>
      let hs := serverLoad s key path
      ⟨updateKey hs.2.assets key (.Loaded hs.1), hs.2.log⟩
  | some (.Loaded _) => s
  | none => s

/-- `AssetManager::load_many` (`resolve_many`): `load` for each key in
order under one lock acquisition. -/
def load_many (s : AMState Key) (keys : List Key) : AMState Key :=
  keys.foldl load s

/-- `AssetManager::get`: absent key gives `none`; a `Lazy path` entry is
promoted by requesting a load, the weak clone of the returned handle is
stored and the strong original is returned; a `Loaded` entry hands out a
weak clone of the stored handle, the state untouched. -/
def get (s : AMState Key) (key : Key) : Option Handle × AMState Key :=
  match lookupKey s.assets key with
  | some (.Lazy path) =>
      let hs := serverLoad s key path
      (some hs.1, ⟨updateKey hs.2.assets key (.Loaded hs.1.clone_weak), hs.2.log⟩)
  | some (.Loaded handle) => (some handle.clone_weak, s)
  | none => (none, s)

/-- `AssetManager::get_many`: the keys are processed in input order under
one lock acquisition with exactly the logic of `get` per key, and the
handles of the present keys are collected, absent keys dropped. -/
def get_many (s : AMState Key) : List Key → List Handle × AMState Key
  | [] => ([], s)
  | key :: rest =>
    match lookupKey s.assets key with
    | some (.Lazy path) =>
        let hs := serverLoad s key path
        let s' : AMState Key := ⟨updateKey hs.2.assets key (.Loaded hs.1.clone_weak), hs.2.log⟩
        let r := get_many s' rest
        (hs.1 :: r.1, r.2)
    | some (.Loaded handle) =>
        let r := get_many s rest
        (handle.clone_weak :: r.1, r.2)
    | none => get_many s rest

/-- A call to the public interface of the manager, for reasoning about
sequences of operations. -/
inductive Op (Key : Type) where
  | insertOp (key : Key) (path : String)
  | insertManyOp (pairs : List (Key × String))
  | insertLoadedOp (key : Key) (path : String)
  | insertManyLoadedOp (pairs : List (Key × String))
  | loadOp (key : Key)
  | loadManyOp (keys : List Key)
  | getOp (key : Key)
  | getManyOp (keys : List Key)

/-- The effect of one public call on the state. -/
def step (s : AMState Key) : Op Key → AMState Key
  | .insertOp k p => insert s k p
  | .insertManyOp ps => insert_many s ps
  | .insertLoadedOp k p => insert_loaded s k p
  | .insertManyLoadedOp ps => insert_many_loaded s ps
  | .loadOp k => load s k
  | .loadManyOp ks => load_many s ks
  | .getOp k => (get s k).2
  | .getManyOp ks => (get_many s ks).2

/-- The state after a sequence of public calls. -/
def run (s : AMState Key) (ops : List (Op Key)) : AMState Key :=
  ops.foldl step s

/-- Whether a call can dispatch a load request on behalf of `key`: an eager
insertion at `key`, or a `load`/`get` (single or batched) naming `key`.
Lazy insertion never dispatches. -/
def dispatchesFor (key : Key) : Op Key → Bool
  | .insertOp _ _ => false
  | .insertManyOp _ => false
  | .insertLoadedOp k _ => decide (k = key)
  | .insertManyLoadedOp ps => ps.any (fun kp => decide (kp.1 = key))
  | .loadOp k => decide (k = key)
  | .loadManyOp ks => ks.any (fun k => decide (k = key))
  | .getOp k => decide (k = key)
  | .getManyOp ks => ks.any (fun k => decide (k = key))

/-- The paths of the load requests in `log` that were issued on behalf of
`key`. -/
def loadsFor (key : Key) (log : List (Key × String)) : List String :=
  (log.filter (fun e => decide (e.1 = key))).map (fun e => e.2)

/-- Specification of `get_many` taken from the spec's words, for the
refinement claim: apply `get` to each key in input order, dropping the
keys that are absent from the result sequence. -/
def get_many_spec (s : AMState Key) : List Key → List Handle × AMState Key
  | [] => ([], s)
  | key :: rest =>
      let r := get s key
      let t := get_many_spec r.2 rest
      (r.1.toList ++ t.1, t.2)

theorem lookupKey_insertKey_self (m : AssetMap Key) (key : Key) (v : AssetHandle) :
    lookupKey (insertKey m key v) key = some v := by
  induction m with
  | nil => simp [insertKey, lookupKey]
  | cons p rest ih =>
      obtain ⟨k, w⟩ := p
      by_cases hk : k = key
      · simp [insertKey, lookupKey, hk]
      · simp [insertKey, lookupKey, hk, ih]

theorem lookupKey_updateKey_self (m : AssetMap Key) (key : Key) (v : AssetHandle) :
    lookupKey (updateKey m key v) key = (lookupKey m key).map (fun _ => v) := by
  induction m with
  | nil => simp [updateKey, lookupKey]
  | cons p rest ih =>
      obtain ⟨k, w⟩ := p
      by_cases hk : k = key
      · simp [updateKey, lookupKey, hk]
      · simp [updateKey, lookupKey, hk, ih]

theorem lookupKey_updateKey_ne (m : AssetMap Key) {k key : Key} (v : AssetHandle)
    (hk : k ≠ key) : lookupKey (updateKey m k v) key = lookupKey m key := by
  induction m with
  | nil => simp [updateKey]
  | cons p rest ih =>
      obtain ⟨k', w⟩ := p
      by_cases hk' : k' = k
      · subst hk'; simp [updateKey, lookupKey, hk, ih]
      · simp [updateKey, lookupKey, hk', ih]

theorem insertKey_idem (m : AssetMap Key) (key : Key) (v : AssetHandle) :
    insertKey (insertKey m key v) key v = insertKey m key v := by
  induction m with
  | nil => simp [insertKey]
  | cons p rest ih =>
      obtain ⟨k, w⟩ := p
      by_cases hk : k = key
      · simp [insertKey, hk]
      · simp [insertKey, hk, ih]

/-- C1: for a key whose entry is already `Resolved` with handle `h`, two
`get` calls in sequence both return `h.clone_weak` — duplicates of the same
underlying resource reference — neither call changes the state (so no new
load request reaches the loader on either call), and the stored handle is
still `h` afterwards. -/
theorem get_resolved_idempotent (s : AMState Key) (key : Key) (h : Handle)
    (hres : lookupKey s.assets key = some (.Loaded h)) :
    (get s key).1 = some h.clone_weak ∧
    (get s key).2 = s ∧
    (get (get s key).2 key).1 = some h.clone_weak ∧
    (get (get s key).2 key).2 = s ∧
    lookupKey (get (get s key).2 key).2.assets key = some (.Loaded h) := by
  simp [get, hres]

theorem get_resolved_idempotent_witness :
    (get (⟨[(1, .Loaded ⟨0, true⟩)], [(1, "a")]⟩ : AMState Nat) 1).2 =
      ⟨[(1, .Loaded ⟨0, true⟩)], [(1, "a")]⟩ :=
  (get_resolved_idempotent ⟨[(1, .Loaded ⟨0, true⟩)], [(1, "a")]⟩ 1 ⟨0, true⟩ (by decide)).2.1

/-- C2: for a key whose entry is `Pending path`, `get` appends exactly one
load request, for that path, to the loader's log; the entry is rewritten to
`Resolved`; and the returned handle and the stored handle are duplicates of
the same underlying reference (the one the loader just produced), not a
second independent load. -/
theorem get_pending_promotes (s : AMState Key) (key : Key) (path : String)
    (hp : lookupKey s.assets key = some (.Lazy path)) :
    (get s key).1 = some ⟨s.log.length, true⟩ ∧
    (get s key).2.log = s.log ++ [(key, path)] ∧
    lookupKey (get s key).2.assets key = some (.Loaded ⟨s.log.length, false⟩) := by
  simp [get, hp, serverLoad, Handle.clone_weak, lookupKey_updateKey_self]

theorem get_pending_promotes_witness :
    (get (⟨[(1, .Lazy "p")], []⟩ : AMState Nat) 1).2.log = [(1, "p")] :=
  (get_pending_promotes ⟨[(1, .Lazy "p")], []⟩ 1 "p" (by decide)).2.1

/-- C3: `insert_loaded key path` appends exactly one load request, for
`path`, to the loader's log at call time, and stores the handle the loader
returned as the `Resolved` entry of `key`. -/
theorem insert_loaded_dispatches (s : AMState Key) (key : Key) (path : String) :
    (insert_loaded s key path).log = s.log ++ [(key, path)] ∧
    lookupKey (insert_loaded s key path).assets key = some (.Loaded ⟨s.log.length, true⟩) := by
  simp [insert_loaded, serverLoad, lookupKey_insertKey_self]

/-- C5: after `insert_lazy key pA` then `insert_lazy key pB`, the entry is
`Pending pB`; the following `get key` leaves the log extended by exactly
one request, for `pB`; and when `pA ≠ pB` none of the newly issued requests
is for `pA`. -/
theorem overwrite_resets (s : AMState Key) (key : Key) (pA pB : String) :
    lookupKey (insert (insert s key pA) key pB).assets key = some (.Lazy pB) ∧
    (get (insert (insert s key pA) key pB) key).2.log = s.log ++ [(key, pB)] ∧
    (pA ≠ pB →
      ∀ e ∈ (get (insert (insert s key pA) key pB) key).2.log.drop s.log.length,
        e.2 ≠ pA) := by
  have hl' : lookupKey (insertKey (insertKey s.assets key (AssetHandle.Lazy pA)) key
      (AssetHandle.Lazy pB)) key = some (AssetHandle.Lazy pB) :=
    lookupKey_insertKey_self _ _ _
  have hl : lookupKey (insert (insert s key pA) key pB).assets key = some (.Lazy pB) := hl'
  have hlog : (get (insert (insert s key pA) key pB) key).2.log = s.log ++ [(key, pB)] := by
    simp [get, insert, serverLoad, hl']
  refine ⟨hl, hlog, fun hne e he => ?_⟩
  rw [hlog] at he
  have : e = (key, pB) := by simpa [List.drop_left] using he
  simp [this]
  exact fun hc => hne hc.symm

/-- C7: for a key absent from the map, `get` returns `none` and hands back
the state unchanged (no load request, no entry inserted), and `load` — the
spec's `resolve` — is a silent no-op returning the state unchanged. -/
theorem absent_key_silent (s : AMState Key) (key : Key)
    (habs : lookupKey s.assets key = none) :
    get s key = (none, s) ∧ load s key = s := by
  simp [get, load, habs]

theorem absent_key_silent_witness :
    get (⟨[(2, .Lazy "p")], []⟩ : AMState Nat) 1 = (none, ⟨[(2, .Lazy "p")], []⟩) :=
  (absent_key_silent ⟨[(2, .Lazy "p")], []⟩ 1 (by decide)).1

/-- C8: `get_many` is, state threading included, the sequential application
of `get` to each key in input order with the absent keys dropped from the
result sequence. -/
theorem get_many_refines_get (s : AMState Key) (keys : List Key) :
    get_many s keys = get_many_spec s keys := by
  induction keys generalizing s with
  | nil => rfl
  | cons key rest ih =>
      cases hk : lookupKey s.assets key with
      | none => simp [get_many, get_many_spec, get, hk, ih]
      | some v => cases v <;> simp [get_many, get_many_spec, get, hk, ih]

/-- C9: lazy insertion is idempotent — repeating `insert key path` with the
same arguments yields the very same state as one call — and a further lazy
insertion with a different path replaces the registration with `Pending` of
the new path. -/
theorem insert_lazy_idempotent (s : AMState Key) (key : Key) (path path' : String) :
    insert (insert s key path) key path = insert s key path ∧
    lookupKey (insert (insert s key path) key path').assets key = some (.Lazy path') := by
  constructor
  · simp [insert, insertKey_idem]
  · simp [insert, lookupKey_insertKey_self]

/-- C10: when `get` promotes a `Pending` entry it stores the weak clone of
the handle the loader returned while the caller receives the loader's
strong original; `insert_loaded` and `load` (the spec's `resolve`) store
the loader's strong handle directly; and `get` on a `Resolved` entry
returns the weak clone of whatever handle is stored. -/
theorem promotion_handle_strength (s : AMState Key) (key : Key) (path : String) (h : Handle) :
    (lookupKey s.assets key = some (.Lazy path) →
      (get s key).1 = some ⟨s.log.length, true⟩ ∧
      lookupKey (get s key).2.assets key =
        some (.Loaded (Handle.clone_weak ⟨s.log.length, true⟩))) ∧
    lookupKey (insert_loaded s key path).assets key = some (.Loaded ⟨s.log.length, true⟩) ∧
    (lookupKey s.assets key = some (.Lazy path) →
      lookupKey (load s key).assets key = some (.Loaded ⟨s.log.length, true⟩)) ∧
    (lookupKey s.assets key = some (.Loaded h) →
      (get s key).1 = some h.clone_weak) := by
  refine ⟨fun hp => ?_, ?_, fun hp => ?_, fun hres => ?_⟩
  · simp [get, hp, serverLoad, lookupKey_updateKey_self]
  · simp [insert_loaded, serverLoad, lookupKey_insertKey_self]
  · simp [load, hp, serverLoad, lookupKey_updateKey_self]
  · simp [get, hres]

theorem load_preserves_resolved (s : AMState Key) (key k' : Key) (h : Handle)
    (hres : lookupKey s.assets key = some (.Loaded h)) :
    lookupKey (load s k').assets key = some (.Loaded h) := by
  by_cases hk : k' = key
  · subst hk; simp [load, hres]
  · unfold load
    cases hl : lookupKey s.assets k' with
    | none => exact hres
    | some v =>
        cases v with
        | Lazy path => simpa [serverLoad, lookupKey_updateKey_ne _ _ hk] using hres
        | Loaded hh => exact hres

theorem get_preserves_resolved (s : AMState Key) (key k' : Key) (h : Handle)
    (hres : lookupKey s.assets key = some (.Loaded h)) :
    lookupKey (get s k').2.assets key = some (.Loaded h) := by
  by_cases hk : k' = key
  · subst hk; simp [get, hres]
  · unfold get
    cases hl : lookupKey s.assets k' with
    | none => exact hres
    | some v =>
        cases v with
        | Lazy path => simpa [serverLoad, lookupKey_updateKey_ne _ _ hk] using hres
        | Loaded hh => exact hres

theorem load_many_preserves_resolved (s : AMState Key) (key : Key) (h : Handle)
    (ks : List Key) (hres : lookupKey s.assets key = some (.Loaded h)) :
    lookupKey (load_many s ks).assets key = some (.Loaded h) := by
  induction ks generalizing s with
  | nil => exact hres
  | cons k rest ih => exact ih (load s k) (load_preserves_resolved s key k h hres)

theorem get_many_preserves_resolved (s : AMState Key) (key : Key) (h : Handle)
    (ks : List Key) (hres : lookupKey s.assets key = some (.Loaded h)) :
    lookupKey (get_many s ks).2.assets key = some (.Loaded h) := by
  induction ks generalizing s with
  | nil => exact hres
  | cons k rest ih =>
      have hstep := get_preserves_resolved s key k h hres
      unfold get_many
      cases hl : lookupKey s.assets k with
      | none => exact ih s hres
      | some v =>
          cases v with
          | Lazy path =>
              refine ih _ ?_
              simpa [get, hl, serverLoad] using hstep
          | Loaded hh => exact ih s hres

/-- C6: none of `load`, `load_many`, `get`, `get_many` ever demotes a
`Resolved` entry: whatever key they are applied to, an entry `Resolved h`
is still exactly `Resolved h` afterwards; `load` on an already-`Resolved`
key is the identity on the whole state (no load request, nothing changed);
and it is lazy re-insertion that resets the entry to `Pending`. -/
theorem resolved_never_demoted (s : AMState Key) (key : Key) (h : Handle)
    (hres : lookupKey s.assets key = some (.Loaded h)) :
    (∀ k', lookupKey (load s k').assets key = some (.Loaded h)) ∧
    (∀ ks, lookupKey (load_many s ks).assets key = some (.Loaded h)) ∧
    (∀ k', lookupKey (get s k').2.assets key = some (.Loaded h)) ∧
    (∀ ks, lookupKey (get_many s ks).2.assets key = some (.Loaded h)) ∧
    load s key = s ∧
    (∀ path, lookupKey (insert s key path).assets key = some (.Lazy path)) := by
  refine ⟨fun k' => load_preserves_resolved s key k' h hres,
    fun ks => load_many_preserves_resolved s key h ks hres,
    fun k' => get_preserves_resolved s key k' h hres,
    fun ks => get_many_preserves_resolved s key h ks hres,
    by simp [load, hres],
    fun path => by simp [insert, lookupKey_insertKey_self]⟩

theorem resolved_never_demoted_witness :
    lookupKey (load (⟨[(1, .Loaded ⟨0, true⟩)], [(1, "a")]⟩ : AMState Nat) 2).assets 1 =
      some (.Loaded ⟨0, true⟩) :=
  (resolved_never_demoted ⟨[(1, .Loaded ⟨0, true⟩)], [(1, "a")]⟩ 1 ⟨0, true⟩ (by decide)).1 2

theorem loadsFor_append (key : Key) (l1 l2 : List (Key × String)) :
    loadsFor key (l1 ++ l2) = loadsFor key l1 ++ loadsFor key l2 := by
  simp [loadsFor]

theorem loadsFor_single_ne (key k : Key) (p : String) (hk : k ≠ key) :
    loadsFor key [(k, p)] = [] := by
  simp [loadsFor, hk]

theorem insert_many_log (s : AMState Key) (ps : List (Key × String)) :
    (insert_many s ps).log = s.log := by
  induction ps generalizing s with
  | nil => rfl
  | cons kp rest ih => exact ih (insert s kp.1 kp.2)

theorem loadsFor_insert_loaded_ne (s : AMState Key) {key k : Key} (p : String)
    (hk : k ≠ key) :
    loadsFor key (insert_loaded s k p).log = loadsFor key s.log := by
  have : (insert_loaded s k p).log = s.log ++ [(k, p)] := rfl
  rw [this, loadsFor_append, loadsFor_single_ne key k p hk, List.append_nil]

theorem loadsFor_insert_many_loaded (s : AMState Key) (key : Key)
    (ps : List (Key × String)) (hps : ∀ kp ∈ ps, kp.1 ≠ key) :
    loadsFor key (insert_many_loaded s ps).log = loadsFor key s.log := by
  induction ps generalizing s with
  | nil => rfl
  | cons kp rest ih =>
      have h1 : loadsFor key (insert_loaded s kp.1 kp.2).log = loadsFor key s.log :=
        loadsFor_insert_loaded_ne s kp.2 (hps kp (by simp))
      exact (ih (insert_loaded s kp.1 kp.2) fun x hx => hps x (by simp [hx])).trans h1

theorem loadsFor_load_ne (s : AMState Key) {key k : Key} (hk : k ≠ key) :
    loadsFor key (load s k).log = loadsFor key s.log := by
  unfold load
  cases hl : lookupKey s.assets k with
  | none => rfl
  | some v =>
      cases v with
      | Lazy p =>
          simp [serverLoad, loadsFor_append, loadsFor_single_ne key k p hk]
      | Loaded hh => rfl

theorem loadsFor_load_many (s : AMState Key) (key : Key) (ks : List Key)
    (hks : ∀ k ∈ ks, k ≠ key) :
    loadsFor key (load_many s ks).log = loadsFor key s.log := by
  induction ks generalizing s with
  | nil => rfl
  | cons k rest ih =>
      exact (ih (load s k) fun x hx => hks x (by simp [hx])).trans
        (loadsFor_load_ne s (hks k (by simp)))

theorem loadsFor_get_ne (s : AMState Key) {key k : Key} (hk : k ≠ key) :
    loadsFor key (get s k).2.log = loadsFor key s.log := by
  unfold get
  cases hl : lookupKey s.assets k with
  | none => rfl
  | some v =>
      cases v with
      | Lazy p =>
          simp [serverLoad, loadsFor_append, loadsFor_single_ne key k p hk]
      | Loaded hh => rfl

theorem loadsFor_get_many (s : AMState Key) (key : Key) (ks : List Key)
    (hks : ∀ k ∈ ks, k ≠ key) :
    loadsFor key (get_many s ks).2.log = loadsFor key s.log := by
  induction ks generalizing s with
  | nil => rfl
  | cons k rest ih =>
      have hk : k ≠ key := hks k (by simp)
      have hrest : ∀ x ∈ rest, x ≠ key := fun x hx => hks x (by simp [hx])
      unfold get_many
      cases hl : lookupKey s.assets k with
      | none => exact ih s hrest
      | some v =>
          cases v with
          | Lazy p =>
              refine (ih _ hrest).trans ?_
              simp [serverLoad, loadsFor_append, loadsFor_single_ne key k p hk]
          | Loaded hh => exact ih s hrest

theorem loadsFor_step (s : AMState Key) (key : Key) (o : Op Key)
    (ho : dispatchesFor key o = false) :
    loadsFor key (step s o).log = loadsFor key s.log := by
  cases o with
  | insertOp k p => rfl
  | insertManyOp ps =>
      show loadsFor key (insert_many s ps).log = loadsFor key s.log
      rw [insert_many_log]
  | insertLoadedOp k p =>
      have hk : k ≠ key := by simpa [dispatchesFor] using ho
      exact loadsFor_insert_loaded_ne s p hk
  | insertManyLoadedOp ps =>
      have hps : ∀ kp ∈ ps, kp.1 ≠ key := by simpa [dispatchesFor] using ho
      exact loadsFor_insert_many_loaded s key ps hps
  | loadOp k =>
      have hk : k ≠ key := by simpa [dispatchesFor] using ho
      exact loadsFor_load_ne s hk
  | loadManyOp ks =>
      have hks : ∀ k ∈ ks, k ≠ key := by simpa [dispatchesFor] using ho
      exact loadsFor_load_many s key ks hks
  | getOp k =>
      have hk : k ≠ key := by simpa [dispatchesFor] using ho
      exact loadsFor_get_ne s hk
  | getManyOp ks =>
      have hks : ∀ k ∈ ks, k ≠ key := by simpa [dispatchesFor] using ho
      exact loadsFor_get_many s key ks hks

theorem loadsFor_run (key : Key) (ops : List (Op Key)) (s : AMState Key)
    (hops : ∀ o ∈ ops, dispatchesFor key o = false) :
    loadsFor key (run s ops).log = loadsFor key s.log := by
  induction ops generalizing s with
  | nil => rfl
  | cons o rest ih =>
      exact (ih (step s o) fun x hx => hops x (by simp [hx])).trans
        (loadsFor_step s key o (hops o (by simp)))

/-- C4: lazy insertion stores `Pending path` at `key` and leaves the
loader's log untouched (zero load requests at call time), and after any
further sequence of calls in which no operation can dispatch a load on
behalf of `key` — no `resolve`/`get` naming `key` and no eager insertion
at `key` — the load requests attributed to `key` are still exactly those
from before the insertion. -/
theorem insert_lazy_defers (s : AMState Key) (key : Key) (path : String)
    (ops : List (Op Key)) (hops : ∀ o ∈ ops, dispatchesFor key o = false) :
    (insert s key path).log = s.log ∧
    lookupKey (insert s key path).assets key = some (.Lazy path) ∧
    loadsFor key (run (insert s key path) ops).log = loadsFor key s.log := by
  exact ⟨rfl, lookupKey_insertKey_self _ _ _, loadsFor_run key ops (insert s key path) hops⟩

theorem insert_lazy_defers_witness :
    lookupKey (insert (⟨[], []⟩ : AMState Nat) 1 "p").assets 1 = some (.Lazy "p") :=
  (insert_lazy_defers ⟨[], []⟩ 1 "p" [Op.getOp 2, Op.insertLoadedOp 3 "q"]
    (by decide)).2.1

end BevyAssetManager
